import Mathlib

/-!
Shallow embedding of `src/23_amphipod/src/burrow.rs`: the burrow puzzle state
model (amphipod kinds, hallway, rooms, successor generation and the search
heuristic), together with proofs of the specified properties.

Rust `Steps` is a newtype over `usize`; it is embedded as `Nat`.  Operations
that mutate `&mut self` in Rust are embedded as functions returning the new
value; operations that can panic (`expect`, "Room full") return `Option`,
with `none` standing for the aborted computation.
-/

set_option autoImplicit false

namespace Amphipod2021

/-- The four amphipod kinds (the Rust `enum Amphipod`). -/
inductive Amphipod : Type
  | amber
  | bronze
  | copper
  | desert
deriving DecidableEq, Repr, Inhabited

/-- Rust `abs_diff` from the source file. -/
def absDiff (a b : Nat) : Nat := if a > b then a - b else b - a

/-- Rust `Amphipod::step_cost`: total movement cost of `steps` single-cell steps. -/
def Amphipod.stepCost : Amphipod → Nat → Nat
  | .amber, steps => steps
  | .bronze, steps => steps * 10
  | .copper, steps => steps * 100
  | .desert, steps => steps * 1000

/-- Rust `AMPHIPODS_BY_ROOM`: the kind assigned to each room index. -/
def amphipodsByRoom : List Amphipod := [.amber, .bronze, .copper, .desert]

/-- Rust `Amphipod::room_index`: position of this kind in `AMPHIPODS_BY_ROOM`. -/
def Amphipod.roomIndex (a : Amphipod) : Nat :=
  amphipodsByRoom.findIdx fun x => decide (x = a)

/-- Rust `ROOM_HALLWAY_POSITIONS`: the hallway cell directly above each room. -/
def roomHallwayPositions : List Nat := [2, 4, 6, 8]

/-- Indexing `AMPHIPODS_BY_ROOM[i]`. -/
def roomKind (i : Nat) : Amphipod := amphipodsByRoom.getD i .amber

/-- Indexing `ROOM_HALLWAY_POSITIONS[i]`. -/
def roomPos (i : Nat) : Nat := roomHallwayPositions.getD i 0

/-- Rust `Hallway`: the 11-cell corridor (`[Option<Amphipod>; 11]`). -/
structure Hallway where
  cells : List (Option Amphipod)
deriving DecidableEq, Repr, Inhabited

/-- Rust `Hallway::amphipods`: all occupied cells as `(position, amphipod)`. -/
def Hallway.amphipods (h : Hallway) : List (Nat × Amphipod) :=
  h.cells.enum.filterMap fun pc => pc.2.map fun a => (pc.1, a)

/-- Rust `Hallway::leave`: `self.0[position].take()`, returned with the new hallway. -/
def Hallway.leave (h : Hallway) (position : Nat) : Option Amphipod × Hallway :=
  (h.cells.getD position none, ⟨h.cells.set position none⟩)

/-- Rust `Hallway::occupy`: place an amphipod at a hallway position. -/
def Hallway.occupy (h : Hallway) (position : Nat) (a : Amphipod) : Hallway :=
  ⟨h.cells.set position (some a)⟩

/-- Rust `Walk`: a reachable hallway position with the steps taken to get there. -/
structure Walk where
  position : Nat
  stepsTaken : Nat
deriving DecidableEq, Repr

/-- One direction of the Rust `Walker` iterator: starting from step count `s`,
yield successive step counts as long as cells are empty, stopping (exclusive)
at the first occupied cell or the end of the slice. -/
def walkFrom : List (Option Amphipod) → Nat → List Nat
  | [], _ => []
  | none :: rest, s => (s + 1) :: walkFrom rest (s + 1)
  | some _ :: _, _ => []

/-- Rust `Hallway::walk` collected into a list: the `Walker` iterator first
drains the left scan (cells `start-1, start-2, ...`), then the right scan
(cells `start+1, start+2, ...`). -/
def Hallway.walk (h : Hallway) (start : Nat) : List Walk :=
  ((walkFrom (h.cells.take start).reverse 0).map fun s => ⟨start - s, s⟩)
    ++ ((walkFrom (h.cells.drop (start + 1)) 0).map fun s => ⟨start + s, s⟩)

/-- Rust `Room`: a fixed-depth stack of cells; index 0 is the open end (1 step
from the entrance), the last index is the closed end. -/
structure Room where
  cells : List (Option Amphipod)
deriving DecidableEq, Repr, Inhabited

/-- Rust `Room::all`: every occupied cell holds the given kind. -/
def Room.all (r : Room) (a : Amphipod) : Bool :=
  (r.cells.filterMap id).all fun x => decide (x = a)

/-- Helper for `Room::leave`: scan from index 0 for the first occupied cell,
remove it, and report the amphipod together with `index + 1` steps. -/
def leaveAux : List (Option Amphipod) → Option (Amphipod × Nat × List (Option Amphipod))
  | [] => none
  | none :: rest => (leaveAux rest).map fun x => (x.1, x.2.1 + 1, none :: x.2.2)
  | some a :: rest => some (a, 1, none :: rest)

/-- Rust `Room::leave`: remove the shallowest occupied cell; `none` if empty. -/
def Room.leave (r : Room) : Option (Amphipod × Nat × Room) :=
  (leaveAux r.cells).map fun x => (x.1, x.2.1, ⟨x.2.2⟩)

/-- Helper for `Room::occupy`: scan from the last index backwards for the
first free cell, fill it, and report `index + 1` steps; `none` when the room
is full (the fatal "Room full" branch). -/
def occupyAux (a : Amphipod) : List (Option Amphipod) → Option (Nat × List (Option Amphipod))
  | [] => none
  | c :: rest =>
    match occupyAux a rest with
    | some x => some (x.1 + 1, c :: x.2)
    | none =>
      match c with
      | none => some (1, some a :: rest)
      | some _ => none

/-- Rust `Room::occupy`: place an amphipod in the deepest free cell; `none`
models the fatal "Room full" abort. -/
def Room.occupy (r : Room) (a : Amphipod) : Option (Nat × Room) :=
  (occupyAux a r.cells).map fun x => (x.1, ⟨x.2⟩)

/-- Number of occupied cells of a room. -/
def Room.occupied (r : Room) : Nat := r.cells.countP fun c => c.isSome

/-- Rust `Burrow`: one hallway plus the four rooms. -/
structure Burrow where
  hallway : Hallway
  rooms : List Room
deriving DecidableEq, Repr, Inhabited

/-- Indexing `self.rooms[i]`. -/
def Burrow.roomAt (b : Burrow) (i : Nat) : Room := b.rooms.getD i ⟨[]⟩

/-- Rust `Burrow::rooms_needing_evictions`: indices of rooms not settled for
their own kind. -/
def Burrow.roomsNeedingEvictions (b : Burrow) : List Nat :=
  (b.rooms.enum.zip amphipodsByRoom).filterMap fun re =>
    if (re.1.2).all re.2 then none else some re.1.1

/-- Rust `Burrow::hallway_ready_to_enter_room`: hallway units whose home room
is settled for their kind and whose walk reaches the cell above that room. -/
def Burrow.hallwayReadyToEnterRoom (b : Burrow) : List (Nat × Walk) :=
  (b.hallway.amphipods.filter fun pa => (b.roomAt pa.2.roomIndex).all pa.2).filterMap
    fun pa =>
      ((b.hallway.walk pa.1).find? fun w =>
          decide (w.position = roomPos pa.2.roomIndex)).map
        fun w => (pa.1, w)

/-- Rust `Burrow::successor_from_room_to_hallway`; `none` models the
`expect` abort on an empty room. -/
def Burrow.successorFromRoomToHallway (b : Burrow) (i : Nat) (w : Walk) :
    Option (Burrow × Nat) :=
  (b.roomAt i).leave.map fun als =>
    (⟨b.hallway.occupy w.position als.1, b.rooms.set i als.2.2⟩,
      als.1.stepCost (als.2.1 + w.stepsTaken))

/-- Rust `Burrow::successor_from_hallway_to_room`; `none` models the
`expect` abort on an empty start cell and the "Room full" abort. -/
def Burrow.successorFromHallwayToRoom (b : Burrow) (start : Nat) (w : Walk) :
    Option (Burrow × Nat) :=
  match (b.hallway.leave start).1 with
  | none => none
  | some a =>
    match (b.roomAt a.roomIndex).occupy a with
    | none => none
    | some er =>
      some (⟨(b.hallway.leave start).2, b.rooms.set a.roomIndex er.2⟩,
        a.stepCost (w.stepsTaken + er.1))

/-- The room-to-hallway half of Rust `Burrow::successors`. -/
def Burrow.roomSuccessors (b : Burrow) : List (Option (Burrow × Nat)) :=
  (b.roomsNeedingEvictions.flatMap fun i =>
      ((b.hallway.walk (roomPos i)).filter fun w =>
          !roomHallwayPositions.contains w.position).map fun w => (i, w))
    |>.map fun iw => b.successorFromRoomToHallway iw.1 iw.2

/-- The hallway-to-room half of Rust `Burrow::successors`. -/
def Burrow.hallwaySuccessors (b : Burrow) : List (Option (Burrow × Nat)) :=
  b.hallwayReadyToEnterRoom.map fun sw => b.successorFromHallwayToRoom sw.1 sw.2

/-- Rust `Burrow::successors`: the room moves chained with the hallway moves. -/
def Burrow.successors (b : Burrow) : List (Option (Burrow × Nat)) :=
  b.roomSuccessors ++ b.hallwaySuccessors

/-- The virtual-eviction loop inside Rust `Burrow::estimated_cost`, with an
explicit fuel argument: repeatedly `leave()` the room until it is settled for
its own kind, charging each evicted unit either the out-and-back-in detour
(`steps + 3`) for an own-kind unit, or the unobstructed trip to its home
room.  The `none` branch of the inner match is the `expect` abort on an empty
room; it is unreachable (`Room.leave_isSome_of_not_all` below).  Each `leave`
removes one unit, so `Room.occupied` fuel always suffices
(`virtualEvictLoop_congr` below); `virtualEvictCost` passes exactly that. -/
def virtualEvictLoop : Nat → Room → Amphipod → Nat → Nat
  | 0, _, _, _ => 0
  | Nat.succ fuel, room, roomAmphipod, rp =>
    if room.all roomAmphipod then 0
    else
      match room.leave with
      | none => 0
      | some x =>
        let s :=
          if x.1 = roomAmphipod then x.2.1 + 3
          else x.2.1 + absDiff rp (roomPos x.1.roomIndex) + 1
        x.1.stepCost s + virtualEvictLoop fuel x.2.2 roomAmphipod rp

/-- The per-room cost inside Rust `Burrow::estimated_cost`. -/
def virtualEvictCost (room : Room) (roomAmphipod : Amphipod) (rp : Nat) : Nat :=
  virtualEvictLoop room.occupied room roomAmphipod rp

/-- Rust `Burrow::estimated_cost`: the admissible heuristic. -/
def Burrow.estimatedCost (b : Burrow) : Nat :=
  (b.roomsNeedingEvictions.map fun i =>
      virtualEvictCost (b.roomAt i) (roomKind i) (roomPos i)).sum
  + (b.hallway.amphipods.map fun pa =>
      pa.2.stepCost (absDiff (roomPos pa.2.roomIndex) pa.1 + 1)).sum

/-- Structural well-formedness guaranteed by the Rust types: the hallway has
11 cells and there are 4 rooms of 4 cells each. -/
def Burrow.WF (b : Burrow) : Prop :=
  b.hallway.cells.length = 11 ∧ b.rooms.length = 4 ∧ ∀ r ∈ b.rooms, r.cells.length = 4

/-- The multiset of all units held jointly by the hallway and the rooms. -/
def Burrow.units (b : Burrow) : Multiset Amphipod :=
  (((b.hallway.cells ++ (b.rooms.map Room.cells).flatten).filterMap id : List Amphipod) :
    Multiset Amphipod)

/-- How many units of one kind the whole burrow holds. -/
def Burrow.kindCount (b : Burrow) (a : Amphipod) : Nat := b.units.count a

/-- Reachability along successor moves, accumulating the incremental costs. -/
inductive Burrow.Reaches : Burrow → Burrow → Nat → Prop
  | refl (b : Burrow) : Burrow.Reaches b b 0
  | step {b s b' : Burrow} {c n : Nat} : some (s, c) ∈ b.successors →
      Burrow.Reaches s b' n → Burrow.Reaches b b' (c + n)

/-- A burrow is solved in the sense of the spec: every room contains only
units of its own designated kind at every occupied depth. -/
def Burrow.Solved (b : Burrow) : Prop :=
  ∀ i, i < 4 → (b.roomAt i).all (roomKind i) = true

/-- Every hallway cell strictly between positions `p` and `q` is empty
(spec section 4.2: the scan stops at the first occupied cell). -/
def Hallway.clearBetween (h : Hallway) (p q : Nat) : Prop :=
  ∀ r, r < max p q → min p q < r → h.cells.getD r none = none

/-- Transcription of the spec's room-to-hallway (eviction) move, section 4.4,
for comparison against `Burrow.roomSuccessors`: the room is not settled for
its own kind, the target is an empty non-doorway hallway cell reachable from
the cell above the room, the shallowest unit moves there, and the cost is
`step_cost(kind, leave_steps + walk_steps)`. -/
def Burrow.evictionSpec (b : Burrow) (i q : Nat) (x : Burrow × Nat) : Prop :=
  i < 4 ∧ (b.roomAt i).all (roomKind i) = false ∧
    q < 11 ∧ q ∉ roomHallwayPositions ∧ q ≠ roomPos i ∧
    b.hallway.cells.getD q none = none ∧ b.hallway.clearBetween (roomPos i) q ∧
    ∃ a steps r', (b.roomAt i).leave = some (a, steps, r') ∧
      x = (⟨b.hallway.occupy q a, b.rooms.set i r'⟩,
        a.stepCost (steps + absDiff q (roomPos i)))

/-- Transcription of the spec's hallway-to-room (homecoming) move, section
4.4, for comparison against `Burrow.hallwaySuccessors`: a unit at hallway
position `p` whose home room is settled for its kind, with an unobstructed
hallway path to the empty cell above that room, enters the deepest free cell
of the room at cost `step_cost(kind, walk_steps + enter_steps)`. -/
def Burrow.homecomingSpec (b : Burrow) (p : Nat) (x : Burrow × Nat) : Prop :=
  ∃ a, p < 11 ∧ b.hallway.cells.getD p none = some a ∧
    (b.roomAt a.roomIndex).all a = true ∧
    b.hallway.cells.getD (roomPos a.roomIndex) none = none ∧
    b.hallway.clearBetween p (roomPos a.roomIndex) ∧
    ∃ e r', (b.roomAt a.roomIndex).occupy a = some (e, r') ∧
      x = (⟨⟨b.hallway.cells.set p none⟩, b.rooms.set a.roomIndex r'⟩,
        a.stepCost (absDiff p (roomPos a.roomIndex) + e))

/-- A room with four empty cells. -/
def emptyRoom : Room := ⟨[none, none, none, none]⟩

/-- A room holding four units of one kind. -/
def fullRoomOf (a : Amphipod) : Room := ⟨[some a, some a, some a, some a]⟩

/-- The solved-and-empty burrow. -/
def emptyBurrow : Burrow :=
  ⟨⟨List.replicate 11 none⟩, [emptyRoom, emptyRoom, emptyRoom, emptyRoom]⟩

/-- The hallway of the source's `can_walk_occupied_hallway` test: units at
positions 0 and 6. -/
def hallwayC6 : Hallway :=
  ⟨[some .bronze, none, none, none, none, none, some .amber, none, none, none, none]⟩

/-- A burrow whose first room holds one bronze unit (so room 0 needs an
eviction) and whose hallway is empty. -/
def exampleBurrow : Burrow :=
  ⟨⟨List.replicate 11 none⟩, [⟨[some .bronze, none, none, none]⟩, emptyRoom, emptyRoom, emptyRoom]⟩

/-- A burrow with one amber unit at hallway position 0 and all rooms empty. -/
def exampleBurrow2 : Burrow :=
  ⟨⟨[some .amber, none, none, none, none, none, none, none, none, none, none]⟩,
    [emptyRoom, emptyRoom, emptyRoom, emptyRoom]⟩

/-- A burrow in which every room is settled for its own kind but one desert
unit still stands in the hallway at position 0. -/
def settledWithHallwayUnit : Burrow :=
  ⟨⟨[some .desert, none, none, none, none, none, none, none, none, none, none]⟩,
    [fullRoomOf .amber, fullRoomOf .bronze, fullRoomOf .copper,
      ⟨[none, some .desert, some .desert, some .desert]⟩]⟩

/-- The first successor of `exampleBurrow`: the bronze unit evicted from
room 0 to hallway position 1, at cost 20. -/
def exampleSuccessor : Burrow × Nat :=
  (⟨⟨(List.replicate 11 none).set 1 (some .bronze)⟩,
    [emptyRoom, emptyRoom, emptyRoom, emptyRoom]⟩, 20)

/-- The homecoming successor of `exampleBurrow2`: the amber unit walks from
hallway position 0 to its room and enters the deepest cell, at cost 6. -/
def exampleSuccessor2 : Burrow × Nat :=
  (⟨⟨List.replicate 11 none⟩,
    [⟨[none, none, none, some .amber]⟩, emptyRoom, emptyRoom, emptyRoom]⟩, 6)

/-! ## Theorems -/

theorem mem_walkFrom (l : List (Option Amphipod)) :
    ∀ (t s : Nat),
      s ∈ walkFrom l t ↔
        t < s ∧ s ≤ t + l.length ∧ ∀ j, j < s - t → l.getD j none = none := by
  induction l with
  | nil =>
    intro t s
    simp only [walkFrom, List.not_mem_nil, List.length_nil, Nat.add_zero, false_iff]
    omega
  | cons c rest ih =>
    intro t s
    match c with
    | some a =>
      simp only [walkFrom, List.not_mem_nil, false_iff]
      rintro ⟨h1, _, h3⟩
      have h0 := h3 0 (by omega)
      simp at h0
    | none =>
      simp only [walkFrom, List.mem_cons, ih, List.length_cons]
      constructor
      · rintro (rfl | ⟨h1, h2, h3⟩)
        · refine ⟨by omega, by omega, fun j hj => ?_⟩
          have hj0 : j = 0 := by omega
          subst hj0
          simp
        · refine ⟨by omega, by omega, fun j hj => ?_⟩
          match j with
          | 0 => simp
          | Nat.succ j' =>
            have := h3 j' (by omega)
            simpa using this
      · rintro ⟨h1, h2, h3⟩
        by_cases heq : s = t + 1
        · exact Or.inl heq
        · refine Or.inr ⟨by omega, by omega, fun j hj => ?_⟩
          have := h3 (j + 1) (by omega)
          simpa using this

theorem getD_reverse_take (l : List (Option Amphipod)) (start j : Nat)
    (hstart : start ≤ l.length) (hj : j < start) :
    ((l.take start).reverse).getD j none = l.getD (start - 1 - j) none := by
  have hlen : (l.take start).reverse.length = start := by
    simp [Nat.min_eq_left hstart]
  rw [List.getD_eq_getElem _ _ (by omega), List.getD_eq_getElem _ _
    (show start - 1 - j < l.length by omega)]
  simp only [List.getElem_reverse, List.getElem_take]
  congr 1
  simp only [List.length_take]
  omega

theorem getD_drop (l : List (Option Amphipod)) (start j : Nat)
    (h : start + 1 + j < l.length) :
    (l.drop (start + 1)).getD j none = l.getD (start + 1 + j) none := by
  rw [List.getD_eq_getElem _ _ (by simp; omega), List.getD_eq_getElem _ _ h]
  simp

theorem absDiff_eq (a b : Nat) : absDiff a b = a - b + (b - a) := by
  unfold absDiff
  split <;> omega

theorem Hallway.mem_walk {h : Hallway} {start : Nat} (hs : start < h.cells.length)
    (q s : Nat) :
    (⟨q, s⟩ : Walk) ∈ h.walk start ↔
      q < h.cells.length ∧ q ≠ start ∧ h.cells.getD q none = none ∧
        h.clearBetween start q ∧ s = absDiff q start := by
  unfold Hallway.walk Hallway.clearBetween
  simp only [List.mem_append, List.mem_map, mem_walkFrom, Walk.mk.injEq]
  have hlt : (h.cells.take start).reverse.length = start := by
    simp; omega
  have hld : (h.cells.drop (start + 1)).length = h.cells.length - (start + 1) := by
    simp
  constructor
  · rintro (⟨t, ⟨h1, h2, h3⟩, rfl, rfl⟩ | ⟨t, ⟨h1, h2, h3⟩, rfl, rfl⟩)
    · rw [hlt] at h2
      refine ⟨by omega, by omega, ?_, ?_, ?_⟩
      · have h0 := h3 (t - 1) (by omega)
        rw [getD_reverse_take _ _ _ (by omega) (by omega)] at h0
        have : start - 1 - (t - 1) = start - t := by omega
        rwa [this] at h0
      · intro r hr1 hr2
        have h0 := h3 (start - 1 - r) (by omega)
        rw [getD_reverse_take _ _ _ (by omega) (by omega)] at h0
        have : start - 1 - (start - 1 - r) = r := by omega
        rwa [this] at h0
      · rw [absDiff_eq]; omega
    · rw [hld] at h2
      refine ⟨by omega, by omega, ?_, ?_, ?_⟩
      · have h0 := h3 (t - 1) (by omega)
        rw [getD_drop _ _ _ (by omega)] at h0
        have : start + 1 + (t - 1) = start + t := by omega
        rwa [this] at h0
      · intro r hr1 hr2
        have h0 := h3 (r - start - 1) (by omega)
        rw [getD_drop _ _ _ (by omega)] at h0
        have : start + 1 + (r - start - 1) = r := by omega
        rwa [this] at h0
      · rw [absDiff_eq]; omega
  · rintro ⟨hq, hne, hempty, hbetween, rfl⟩
    rcases Nat.lt_or_ge q start with hq' | hq'
    · left
      refine ⟨start - q, ⟨by omega, by rw [hlt]; omega, fun j hj => ?_⟩,
        by omega, by rw [absDiff_eq]; omega⟩
      rw [getD_reverse_take _ _ _ (by omega) (by omega)]
      rcases Nat.eq_or_lt_of_le (show q ≤ start - 1 - j by omega) with heq | hlt2
      · rw [← heq]; exact hempty
      · exact hbetween _ (by omega) (by omega)
    · have hq'' : start < q := by omega
      right
      refine ⟨q - start, ⟨by omega, by rw [hld]; omega, fun j hj => ?_⟩,
        by omega, by rw [absDiff_eq]; omega⟩
      rw [getD_drop _ _ _ (by omega)]
      rcases Nat.eq_or_lt_of_le (show start + 1 + j ≤ q by omega) with heq | hlt2
      · rw [heq]; exact hempty
      · exact hbetween _ (by omega) (by omega)

theorem stepCost_add (a : Amphipod) (s t : Nat) :
    a.stepCost (s + t) = a.stepCost s + a.stepCost t := by
  cases a <;> simp [Amphipod.stepCost, Nat.add_mul]

theorem stepCost_mono (a : Amphipod) {s t : Nat} (h : s ≤ t) :
    a.stepCost s ≤ a.stepCost t := by
  cases a <;> simp [Amphipod.stepCost] <;> omega

theorem stepCost_pos (a : Amphipod) {s : Nat} (h : 1 ≤ s) : 0 < a.stepCost s := by
  have h1 : a.stepCost 1 ≤ a.stepCost s := stepCost_mono a h
  cases a <;> simp [Amphipod.stepCost] at h1 ⊢ <;> omega

theorem roomIndex_lt (a : Amphipod) : a.roomIndex < 4 := by
  cases a <;> decide

theorem roomKind_roomIndex (a : Amphipod) : roomKind a.roomIndex = a := by
  cases a <;> decide

theorem roomPos_roomIndex_mem (a : Amphipod) : roomPos a.roomIndex ∈ roomHallwayPositions := by
  cases a <;> decide

theorem roomIndex_roomKind {i : Nat} (h : i < 4) : (roomKind i).roomIndex = i :=
  match i, h with
  | 0, _ => by decide
  | 1, _ => by decide
  | 2, _ => by decide
  | 3, _ => by decide

theorem roomPos_lt {i : Nat} (h : i < 4) : roomPos i < 11 :=
  match i, h with
  | 0, _ => by decide
  | 1, _ => by decide
  | 2, _ => by decide
  | 3, _ => by decide

theorem Room.all_iff (r : Room) (k : Amphipod) :
    r.all k = true ↔ ∀ c ∈ r.cells, ∀ a, c = some a → a = k := by
  unfold Room.all
  simp only [List.all_eq_true, List.mem_filterMap, id, decide_eq_true_eq]
  constructor
  · intro h c hc a ha
    exact h a ⟨c, hc, by rw [ha]⟩
  · rintro h x ⟨c, hc, hcx⟩
    exact h c hc x hcx

theorem Room.not_all_iff (r : Room) (k : Amphipod) :
    r.all k = false ↔ ∃ c ∈ r.cells, ∃ a, c = some a ∧ a ≠ k := by
  rw [← Bool.not_eq_true, (r.all_iff k).not]
  push_neg
  constructor
  · rintro ⟨c, hc, a, ha, hne⟩
    exact ⟨c, hc, a, ha, hne⟩
  · rintro ⟨c, hc, a, ha, hne⟩
    exact ⟨c, hc, a, ha, hne⟩

theorem leaveAux_eq_none_iff (l : List (Option Amphipod)) :
    leaveAux l = none ↔ ∀ c ∈ l, c = none := by
  induction l with
  | nil => simp [leaveAux]
  | cons c rest ih =>
    match c with
    | none => simp [leaveAux, ih]
    | some a => simp [leaveAux]

theorem leaveAux_spec (l : List (Option Amphipod)) :
    ∀ (a : Amphipod) (s : Nat) (l' : List (Option Amphipod)),
      leaveAux l = some (a, s, l') →
      ∃ j, j < l.length ∧ l.getD j none = some a ∧
        (∀ k, k < j → l.getD k none = none) ∧ s = j + 1 ∧ l' = l.set j none := by
  induction l with
  | nil => intro a s l' h; simp [leaveAux] at h
  | cons c rest ih =>
    intro a s l' h
    match c with
    | none =>
      simp only [leaveAux, Option.map_eq_some'] at h
      obtain ⟨y, hy, hval⟩ := h
      obtain ⟨a1, s1, rest1⟩ := y
      dsimp only at hval
      simp only [Prod.mk.injEq] at hval
      obtain ⟨rfl, rfl, rfl⟩ := hval
      obtain ⟨j, hj, hget, hbefore, hs, hset⟩ := ih a1 s1 rest1 hy
      refine ⟨j + 1, by simp; omega, by simpa using hget, fun k hk => ?_, by omega, ?_⟩
      · match k with
        | 0 => simp
        | Nat.succ k' => simpa using hbefore k' (by omega)
      · simp [hset]
    | some a0 =>
      simp only [leaveAux, Option.some.injEq, Prod.mk.injEq] at h
      obtain ⟨rfl, rfl, rfl⟩ := h
      exact ⟨0, by simp, by simp, fun k hk => absurd hk (by omega), rfl, by simp⟩

theorem occupyAux_nil (a : Amphipod) : occupyAux a [] = none := rfl

theorem occupyAux_cons (a : Amphipod) (c : Option Amphipod)
    (rest : List (Option Amphipod)) :
    occupyAux a (c :: rest) =
      match occupyAux a rest with
      | some x => some (x.1 + 1, c :: x.2)
      | none =>
        match c with
        | none => some (1, some a :: rest)
        | some _ => none := rfl

theorem occupyAux_eq_none_iff (a : Amphipod) (l : List (Option Amphipod)) :
    occupyAux a l = none ↔ ∀ c ∈ l, c.isSome = true := by
  induction l with
  | nil => simp [occupyAux_nil]
  | cons c rest ih =>
    rw [occupyAux_cons]
    cases hrest : occupyAux a rest with
    | some x =>
      simp only [List.mem_cons]
      constructor
      · intro h; exact absurd h (by simp)
      · intro h
        have hall : ∀ c ∈ rest, c.isSome = true := fun c hc => h c (Or.inr hc)
        rw [← ih] at hall
        rw [hall] at hrest
        exact Option.noConfusion hrest
    | none =>
      cases c with
      | none =>
        simp only [List.mem_cons]
        constructor
        · intro h; exact absurd h (by simp)
        · intro h
          have h0 := h none (Or.inl rfl)
          simp at h0
      | some a0 =>
        simp only [List.mem_cons]
        constructor
        · intro _ c hc
          rcases hc with rfl | hc
          · rfl
          · exact (ih.mp hrest) c hc
        · intro _; trivial

theorem occupyAux_spec (a : Amphipod) (l : List (Option Amphipod)) :
    ∀ (s : Nat) (l' : List (Option Amphipod)), occupyAux a l = some (s, l') →
      ∃ j, j < l.length ∧ l.getD j none = none ∧
        (∀ k, j < k → k < l.length → (l.getD k none).isSome = true) ∧
        s = j + 1 ∧ l' = l.set j (some a) := by
  induction l with
  | nil => intro s l' h; rw [occupyAux_nil] at h; exact Option.noConfusion h
  | cons c rest ih =>
    intro s l' h
    rw [occupyAux_cons] at h
    cases hrest : occupyAux a rest with
    | some x =>
      rw [hrest] at h
      simp only [Option.some.injEq, Prod.mk.injEq] at h
      obtain ⟨rfl, rfl⟩ := h
      obtain ⟨j, hj, hget, hafter, hs, hset⟩ := ih x.1 x.2 hrest
      refine ⟨j + 1, by simp; omega, by simpa using hget, fun k hk1 hk2 => ?_,
        by omega, ?_⟩
      · match k with
        | 0 => omega
        | Nat.succ k' =>
          simp only [List.getD_cons_succ]
          exact hafter k' (by omega) (by simp at hk2; omega)
      · simp [hset]
    | none =>
      rw [hrest] at h
      cases c with
      | none =>
        simp only [Option.some.injEq, Prod.mk.injEq] at h
        obtain ⟨rfl, rfl⟩ := h
        refine ⟨0, by simp, by simp, fun k hk1 hk2 => ?_, rfl, by simp⟩
        match k with
        | 0 => omega
        | Nat.succ k' =>
          simp only [List.getD_cons_succ]
          have hmem : rest.getD k' none ∈ rest := by
            rw [List.getD_eq_getElem _ _ (by simp at hk2; omega)]
            exact List.getElem_mem _
          exact (occupyAux_eq_none_iff a rest).mp hrest _ hmem
      | some a0 => exact Option.noConfusion h

theorem Room.leave_eq_none_iff (r : Room) :
    r.leave = none ↔ ∀ c ∈ r.cells, c = none := by
  unfold Room.leave
  rw [Option.map_eq_none']
  exact leaveAux_eq_none_iff r.cells

theorem Room.leave_spec {r : Room} {a : Amphipod} {s : Nat} {r' : Room}
    (h : r.leave = some (a, s, r')) :
    ∃ j, j < r.cells.length ∧ r.cells.getD j none = some a ∧
      (∀ k, k < j → r.cells.getD k none = none) ∧ s = j + 1 ∧
      r' = ⟨r.cells.set j none⟩ := by
  unfold Room.leave at h
  rw [Option.map_eq_some'] at h
  obtain ⟨y, hy, hval⟩ := h
  obtain ⟨a1, s1, l1⟩ := y
  dsimp only at hval
  simp only [Prod.mk.injEq] at hval
  obtain ⟨rfl, rfl, rfl⟩ := hval
  obtain ⟨j, hj, hget, hbefore, hs, hset⟩ := leaveAux_spec r.cells a1 s1 l1 hy
  exact ⟨j, hj, hget, hbefore, hs, by rw [hset]⟩

theorem Room.occupy_eq_none_iff (r : Room) (a : Amphipod) :
    r.occupy a = none ↔ ∀ c ∈ r.cells, c.isSome = true := by
  unfold Room.occupy
  rw [Option.map_eq_none']
  exact occupyAux_eq_none_iff a r.cells

theorem Room.occupy_spec {r : Room} {a : Amphipod} {s : Nat} {r' : Room}
    (h : r.occupy a = some (s, r')) :
    ∃ j, j < r.cells.length ∧ r.cells.getD j none = none ∧
      (∀ k, j < k → k < r.cells.length → (r.cells.getD k none).isSome = true) ∧
      s = j + 1 ∧ r' = ⟨r.cells.set j (some a)⟩ := by
  unfold Room.occupy at h
  rw [Option.map_eq_some'] at h
  obtain ⟨y, hy, hval⟩ := h
  obtain ⟨s1, l1⟩ := y
  dsimp only at hval
  simp only [Prod.mk.injEq] at hval
  obtain ⟨rfl, rfl⟩ := hval
  obtain ⟨j, hj, hget, hafter, hs, hset⟩ := occupyAux_spec a r.cells s1 l1 hy
  exact ⟨j, hj, hget, hafter, hs, by rw [hset]⟩

theorem Room.leave_isSome_of_not_all {r : Room} {k : Amphipod}
    (h : r.all k = false) : r.leave ≠ none := by
  intro hnone
  rw [Room.leave_eq_none_iff] at hnone
  rw [Room.not_all_iff] at h
  obtain ⟨c, hc, a, rfl, _⟩ := h
  exact Option.noConfusion (hnone _ hc)

theorem filterMap_set_none_perm (l : List (Option Amphipod)) :
    ∀ (j : Nat) (a : Amphipod), j < l.length → l.getD j none = some a →
      List.Perm (l.filterMap id) (a :: (l.set j none).filterMap id) := by
  induction l with
  | nil => intro j a hj _; simp at hj
  | cons c rest ih =>
    intro j a hj hget
    match j with
    | 0 =>
      simp only [List.getD_cons_zero] at hget
      subst hget
      simp [List.filterMap_cons]
    | Nat.succ j' =>
      have hj' : j' < rest.length := by simpa using hj
      have hget' : rest.getD j' none = some a := by simpa using hget
      have hperm := ih j' a hj' hget'
      match c with
      | none => simpa [List.filterMap_cons] using hperm
      | some b =>
        simp only [List.filterMap_cons, List.set_cons_succ, id]
        exact (hperm.cons b).trans (List.Perm.swap a b _)

theorem filterMap_set_some_perm (l : List (Option Amphipod)) :
    ∀ (j : Nat) (a : Amphipod), j < l.length → l.getD j none = none →
      List.Perm ((l.set j (some a)).filterMap id) (a :: l.filterMap id) := by
  induction l with
  | nil => intro j a hj _; simp at hj
  | cons c rest ih =>
    intro j a hj hget
    match j with
    | 0 =>
      simp only [List.getD_cons_zero] at hget
      subst hget
      simp [List.filterMap_cons]
    | Nat.succ j' =>
      have hj' : j' < rest.length := by simpa using hj
      have hget' : rest.getD j' none = none := by simpa using hget
      have hperm := ih j' a hj' hget'
      match c with
      | none => simpa [List.filterMap_cons] using hperm
      | some b =>
        simp only [List.filterMap_cons, List.set_cons_succ, id]
        exact (hperm.cons b).trans (List.Perm.swap a b _)

theorem occupied_eq_length_filterMap (l : List (Option Amphipod)) :
    l.countP (fun c => c.isSome) = (l.filterMap id).length := by
  induction l with
  | nil => simp
  | cons c rest ih =>
    match c with
    | none => simpa [List.countP_cons] using ih
    | some a => simp [List.countP_cons, ih]

theorem Room.occupied_of_leave {r : Room} {a : Amphipod} {s : Nat} {r' : Room}
    (h : r.leave = some (a, s, r')) : r'.occupied + 1 = r.occupied := by
  obtain ⟨j, hj, hget, _, _, rfl⟩ := Room.leave_spec h
  have hlen := (filterMap_set_none_perm r.cells j a hj hget).length_eq
  simp only [List.length_cons] at hlen
  unfold Room.occupied
  simp only [occupied_eq_length_filterMap]
  omega

theorem Room.all_of_occupied_zero {r : Room} (h : r.occupied = 0) (k : Amphipod) :
    r.all k = true := by
  unfold Room.occupied at h
  rw [List.countP_eq_zero] at h
  rw [Room.all_iff]
  intro c hc a ha
  have hs := h c hc
  rw [ha] at hs
  simp at hs

theorem virtualEvictLoop_zero (room : Room) (k : Amphipod) (rp : Nat) :
    virtualEvictLoop 0 room k rp = 0 := rfl

theorem virtualEvictLoop_succ (fuel : Nat) (room : Room) (k : Amphipod) (rp : Nat) :
    virtualEvictLoop (fuel + 1) room k rp =
      if room.all k then 0
      else
        match room.leave with
        | none => 0
        | some x =>
          x.1.stepCost (if x.1 = k then x.2.1 + 3
            else x.2.1 + absDiff rp (roomPos x.1.roomIndex) + 1) +
            virtualEvictLoop fuel x.2.2 k rp := rfl

theorem virtualEvictLoop_congr : ∀ (n m : Nat) (room : Room) (k : Amphipod) (rp : Nat),
    room.occupied ≤ n → room.occupied ≤ m →
    virtualEvictLoop n room k rp = virtualEvictLoop m room k rp := by
  intro n
  induction n with
  | zero =>
    intro m room k rp hn hm
    have hocc : room.occupied = 0 := by omega
    have hall := Room.all_of_occupied_zero hocc k
    cases m with
    | zero => rfl
    | succ m' => simp [virtualEvictLoop_succ, hall, virtualEvictLoop_zero]
  | succ n' ih =>
    intro m room k rp hn hm
    cases m with
    | zero =>
      have hocc : room.occupied = 0 := by omega
      have hall := Room.all_of_occupied_zero hocc k
      simp [virtualEvictLoop_succ, hall, virtualEvictLoop_zero]
    | succ m' =>
      rw [virtualEvictLoop_succ, virtualEvictLoop_succ]
      by_cases hall : room.all k = true
      · simp [hall]
      · simp only [Bool.not_eq_true] at hall
        simp only [hall, Bool.false_eq_true, if_false]
        cases hleave : room.leave with
        | none => rfl
        | some x =>
          obtain ⟨a1, s1, r1⟩ := x
          dsimp only
          have hdec := Room.occupied_of_leave hleave
          have h1 : r1.occupied ≤ n' := by omega
          have h2 : r1.occupied ≤ m' := by omega
          rw [ih m' r1 k rp h1 h2]

theorem virtualEvictCost_of_all {room : Room} {k : Amphipod} (rp : Nat)
    (h : room.all k = true) : virtualEvictCost room k rp = 0 := by
  unfold virtualEvictCost
  cases hocc : room.occupied with
  | zero => rfl
  | succ n => simp [virtualEvictLoop_succ, h]

theorem virtualEvictCost_of_leave {room : Room} {k : Amphipod} {rp : Nat}
    {a : Amphipod} {steps : Nat} {r' : Room} (hall : room.all k = false)
    (hleave : room.leave = some (a, steps, r')) :
    virtualEvictCost room k rp =
      a.stepCost (if a = k then steps + 3
        else steps + absDiff rp (roomPos a.roomIndex) + 1)
        + virtualEvictCost r' k rp := by
  unfold virtualEvictCost
  cases hocc : room.occupied with
  | zero =>
    have := Room.all_of_occupied_zero hocc k
    rw [hall] at this
    exact Bool.noConfusion this
  | succ n =>
    rw [virtualEvictLoop_succ, hall]
    simp only [Bool.false_eq_true, if_false]
    rw [hleave]
    dsimp only
    have hdec := Room.occupied_of_leave hleave
    rw [virtualEvictLoop_congr n r'.occupied r' k rp (by omega) (le_refl _)]

theorem virtualEvictCost_pos {room : Room} {k : Amphipod} (rp : Nat)
    (h : room.all k = false) : 0 < virtualEvictCost room k rp := by
  cases hleave : room.leave with
  | none => exact absurd hleave (Room.leave_isSome_of_not_all h)
  | some x =>
    obtain ⟨a, steps, r'⟩ := x
    rw [virtualEvictCost_of_leave h hleave]
    have hsteps : 1 ≤ steps := by
      obtain ⟨j, _, _, _, hs, _⟩ := Room.leave_spec hleave
      omega
    have hpos : 0 < a.stepCost (if a = k then steps + 3
        else steps + absDiff rp (roomPos a.roomIndex) + 1) :=
      stepCost_pos a (by split <;> omega)
    omega

theorem Room.all_occupy {r : Room} {k : Amphipod} {s : Nat} {r' : Room}
    (hall : r.all k = true) (h : r.occupy k = some (s, r')) : r'.all k = true := by
  obtain ⟨j, hj, hget, _, _, rfl⟩ := Room.occupy_spec h
  rw [Room.all_iff] at hall ⊢
  intro c hc a ha
  rcases List.mem_or_eq_of_mem_set hc with hc' | rfl
  · exact hall c hc' a ha
  · injection ha with h1
    exact h1.symm

theorem rooms_flatten_set (rs : List Room) :
    ∀ (i : Nat) (r' : Room), i < rs.length →
      ((((rs.set i r').map Room.cells).flatten.filterMap id : List Amphipod) :
          Multiset Amphipod)
        + (((rs.getD i ⟨[]⟩).cells.filterMap id : List Amphipod) : Multiset Amphipod)
      = (((rs.map Room.cells).flatten.filterMap id : List Amphipod) : Multiset Amphipod)
        + ((r'.cells.filterMap id : List Amphipod) : Multiset Amphipod) := by
  induction rs with
  | nil => intro i r' hi; simp at hi
  | cons r0 rest ih =>
    intro i r' hi
    match i with
    | 0 =>
      simp only [List.set_cons_zero, List.getD_cons_zero, List.map_cons,
        List.flatten_cons, List.filterMap_append, ← Multiset.coe_add]
      abel
    | Nat.succ i' =>
      have hi' : i' < rest.length := by simpa using hi
      have hrec := ih i' r' hi'
      simp only [List.set_cons_succ, List.getD_cons_succ, List.map_cons,
        List.flatten_cons, List.filterMap_append, ← Multiset.coe_add]
      simp only [← Multiset.coe_add] at hrec
      calc (↑(r0.cells.filterMap id) : Multiset Amphipod)
          + ↑(((rest.set i' r').map Room.cells).flatten.filterMap id)
          + ↑((rest.getD i' ⟨[]⟩).cells.filterMap id)
        = ↑(r0.cells.filterMap id)
          + (↑(((rest.set i' r').map Room.cells).flatten.filterMap id)
            + ↑((rest.getD i' ⟨[]⟩).cells.filterMap id)) := by abel
      _ = ↑(r0.cells.filterMap id)
          + (↑((rest.map Room.cells).flatten.filterMap id)
            + ↑(r'.cells.filterMap id)) := by rw [hrec]
      _ = ↑(r0.cells.filterMap id) + ↑((rest.map Room.cells).flatten.filterMap id)
          + ↑(r'.cells.filterMap id) := by abel

theorem amphipods_def (h : Hallway) :
    h.amphipods = (h.cells.enumFrom 0).filterMap
      (fun pc => pc.2.map fun x => (pc.1, x)) := rfl

theorem mem_amphipodsAux (l : List (Option Amphipod)) :
    ∀ (n p : Nat) (a : Amphipod),
      (p, a) ∈ (l.enumFrom n).filterMap (fun pc => pc.2.map fun x => (pc.1, x)) ↔
        n ≤ p ∧ p - n < l.length ∧ l.getD (p - n) none = some a := by
  induction l with
  | nil => intro n p a; simp
  | cons c rest ih =>
    intro n p a
    rw [List.enumFrom_cons]
    match c with
    | none =>
      simp only [List.filterMap_cons, Option.map_none']
      rw [ih]
      constructor
      · rintro ⟨h1, h2, h3⟩
        refine ⟨by omega, by simp; omega, ?_⟩
        have hpn : p - n = (p - (n + 1)) + 1 := by omega
        rw [hpn]
        simpa using h3
      · rintro ⟨h1, h2, h3⟩
        by_cases hp : p = n
        · subst hp; simp at h3
        · refine ⟨by omega, by simp at h2; omega, ?_⟩
          have hpn : p - n = (p - (n + 1)) + 1 := by omega
          rw [hpn] at h3
          simpa using h3
    | some b =>
      simp only [List.filterMap_cons, Option.map_some']
      rw [List.mem_cons]
      constructor
      · rintro (heq | hmem)
        · obtain ⟨rfl, rfl⟩ : p = n ∧ a = b := by
            simpa [Prod.ext_iff] using heq
          exact ⟨le_refl _, by simp, by simp⟩
        · obtain ⟨h1, h2, h3⟩ := (ih (n + 1) p a).mp hmem
          refine ⟨by omega, by simp; omega, ?_⟩
          have hpn : p - n = (p - (n + 1)) + 1 := by omega
          rw [hpn]
          simpa using h3
      · rintro ⟨h1, h2, h3⟩
        by_cases hp : p = n
        · subst hp
          left
          simp only [Nat.sub_self, List.getD_cons_zero, Option.some.injEq] at h3
          rw [h3]
        · right
          refine (ih (n + 1) p a).mpr ⟨by omega, by simp at h2; omega, ?_⟩
          have hpn : p - n = (p - (n + 1)) + 1 := by omega
          rw [hpn] at h3
          simpa using h3

theorem Hallway.mem_amphipods (h : Hallway) (p : Nat) (a : Amphipod) :
    (p, a) ∈ h.amphipods ↔ p < h.cells.length ∧ h.cells.getD p none = some a := by
  rw [amphipods_def, mem_amphipodsAux]
  simp

theorem amphipods_sum_set_aux (f : Nat × Amphipod → Nat) (l : List (Option Amphipod)) :
    ∀ (n q : Nat) (v : Option Amphipod), q < l.length →
      ((((l.set q v).enumFrom n).filterMap
          (fun pc => pc.2.map fun x => (pc.1, x))).map f).sum
        + (l.getD q none).elim 0 (fun b => f (n + q, b))
      = (((l.enumFrom n).filterMap (fun pc => pc.2.map fun x => (pc.1, x))).map f).sum
        + v.elim 0 (fun b => f (n + q, b)) := by
  induction l with
  | nil => intro n q v hq; simp at hq
  | cons c rest ih =>
    intro n q v hq
    match q with
    | 0 =>
      simp only [List.set_cons_zero, List.getD_cons_zero, List.enumFrom_cons,
        Nat.add_zero]
      match c, v with
      | none, none => rfl
      | none, some b =>
        simp only [List.filterMap_cons, Option.map_none', Option.map_some']
        simp [Option.elim]
        omega
      | some b, none =>
        simp only [List.filterMap_cons, Option.map_none', Option.map_some']
        simp [Option.elim]
        omega
      | some b, some b' =>
        simp only [List.filterMap_cons, Option.map_some']
        simp [Option.elim]
        omega
    | Nat.succ q' =>
      have hq' : q' < rest.length := by simpa using hq
      have hrec := ih (n + 1) q' v hq'
      have hn : n + 1 + q' = n + (q' + 1) := by omega
      rw [hn] at hrec
      simp only [List.set_cons_succ, List.getD_cons_succ, List.enumFrom_cons]
      match c with
      | none =>
        simp only [List.filterMap_cons, Option.map_none']
        exact hrec
      | some b =>
        simp only [List.filterMap_cons, Option.map_some']
        simp only [List.map_cons, List.sum_cons, Nat.succ_eq_add_one]
        omega

theorem hallway_sum_occupy (f : Nat × Amphipod → Nat) (h : Hallway) (q : Nat)
    (a : Amphipod) (hq : q < h.cells.length)
    (hempty : h.cells.getD q none = none) :
    ((h.occupy q a).amphipods.map f).sum = (h.amphipods.map f).sum + f (q, a) := by
  have key := amphipods_sum_set_aux f h.cells 0 q (some a) hq
  rw [hempty] at key
  simp only [Option.elim, Nat.zero_add] at key
  rw [amphipods_def, amphipods_def]
  unfold Hallway.occupy
  dsimp only
  omega

theorem hallway_sum_remove (f : Nat × Amphipod → Nat) (h : Hallway) (q : Nat)
    (a : Amphipod) (hq : q < h.cells.length)
    (hget : h.cells.getD q none = some a) :
    (h.amphipods.map f).sum =
      ((⟨h.cells.set q none⟩ : Hallway).amphipods.map f).sum + f (q, a) := by
  have key := amphipods_sum_set_aux f h.cells 0 q none hq
  rw [hget] at key
  simp only [Option.elim, Nat.zero_add] at key
  rw [amphipods_def, amphipods_def]
  dsimp only
  omega

theorem roomsNeedingEvictions_eq (b : Burrow) (hlen : b.rooms.length = 4) :
    b.roomsNeedingEvictions =
      (List.range 4).filter fun i => !(b.roomAt i).all (roomKind i) := by
  obtain ⟨hw, rooms⟩ := b
  simp only at hlen
  rcases rooms with _ | ⟨r0, _ | ⟨r1, _ | ⟨r2, _ | ⟨r3, _ | ⟨r4, rest⟩⟩⟩⟩⟩ <;>
    simp only [List.length_cons, List.length_nil] at hlen <;> try omega
  have hrange : List.range 4 = [0, 1, 2, 3] := rfl
  unfold Burrow.roomsNeedingEvictions Burrow.roomAt
  rw [hrange]
  cases h0 : r0.all (roomKind 0) <;> cases h1 : r1.all (roomKind 1) <;>
    cases h2 : r2.all (roomKind 2) <;> cases h3 : r3.all (roomKind 3) <;>
    simp_all [List.enum, List.enumFrom, amphipodsByRoom, roomKind,
      List.filter]

theorem sum_map_filter_of_zero {α : Type} (l : List α) (p : α → Bool) (g : α → Nat)
    (h : ∀ x ∈ l, p x = false → g x = 0) :
    ((l.filter p).map g).sum = (l.map g).sum := by
  induction l with
  | nil => rfl
  | cons x rest ih =>
    have hrest := fun y hy => h y (List.mem_cons_of_mem x hy)
    cases hp : p x with
    | true => simp [List.filter_cons, hp, ih hrest]
    | false => simp [List.filter_cons, hp, ih hrest, h x (List.mem_cons_self x rest) hp]

theorem virtualEvictCost_eq_zero_iff (room : Room) (k : Amphipod) (rp : Nat) :
    virtualEvictCost room k rp = 0 ↔ room.all k = true := by
  constructor
  · intro h
    by_contra hne
    rw [Bool.not_eq_true] at hne
    have := virtualEvictCost_pos rp hne
    omega
  · exact virtualEvictCost_of_all rp

theorem estimatedCost_eq (b : Burrow) (hlen : b.rooms.length = 4) :
    b.estimatedCost =
      (((List.range 4).map fun i =>
          virtualEvictCost (b.roomAt i) (roomKind i) (roomPos i)).sum)
      + (b.hallway.amphipods.map fun pa =>
          pa.2.stepCost (absDiff (roomPos pa.2.roomIndex) pa.1 + 1)).sum := by
  unfold Burrow.estimatedCost
  rw [roomsNeedingEvictions_eq b hlen]
  congr 1
  apply sum_map_filter_of_zero
  intro i _ hip
  simp only [Bool.not_eq_false'] at hip
  exact virtualEvictCost_of_all _ hip

theorem mem_roomsNeedingEvictions {b : Burrow} (hlen : b.rooms.length = 4)
    {i : Nat} :
    i ∈ b.roomsNeedingEvictions ↔ i < 4 ∧ (b.roomAt i).all (roomKind i) = false := by
  rw [roomsNeedingEvictions_eq b hlen]
  simp [List.mem_filter, List.mem_range]

theorem estimatedCost_zero_aux (b : Burrow) (hlen : b.rooms.length = 4) :
    b.estimatedCost = 0 ↔ b.Solved ∧ b.hallway.amphipods = [] := by
  rw [estimatedCost_eq b hlen]
  constructor
  · intro h
    have h1 : (((List.range 4).map fun i =>
        virtualEvictCost (b.roomAt i) (roomKind i) (roomPos i)).sum) = 0 := by omega
    have h2 : ((b.hallway.amphipods.map fun pa =>
        pa.2.stepCost (absDiff (roomPos pa.2.roomIndex) pa.1 + 1)).sum) = 0 := by
      omega
    constructor
    · intro i hi
      have hz : virtualEvictCost (b.roomAt i) (roomKind i) (roomPos i) = 0 :=
        List.sum_eq_zero_iff.mp h1 _ (List.mem_map_of_mem _ (List.mem_range.mpr hi))
      exact (virtualEvictCost_eq_zero_iff _ _ _).mp hz
    · by_contra hne
      obtain ⟨pa, hpa⟩ := List.exists_mem_of_ne_nil _ hne
      have hterm := List.sum_eq_zero_iff.mp h2 _ (List.mem_map_of_mem _ hpa)
      have hpos : 0 < pa.2.stepCost (absDiff (roomPos pa.2.roomIndex) pa.1 + 1) :=
        stepCost_pos _ (by omega)
      omega
  · rintro ⟨hsolved, hempty⟩
    have h1 : (((List.range 4).map fun i =>
        virtualEvictCost (b.roomAt i) (roomKind i) (roomPos i)).sum) = 0 := by
      apply List.sum_eq_zero_iff.mpr
      intro x hx
      obtain ⟨i, hi, rfl⟩ := List.mem_map.mp hx
      exact virtualEvictCost_of_all _ (hsolved i (List.mem_range.mp hi))
    rw [hempty, h1]
    rfl

theorem solved_no_evictions {b : Burrow} (hlen : b.rooms.length = 4)
    (h : b.Solved) : b.roomsNeedingEvictions = [] := by
  rw [roomsNeedingEvictions_eq b hlen]
  apply List.filter_eq_nil_iff.mpr
  intro i hi
  simp [h i (List.mem_range.mp hi)]

/-- C6: for a hallway of 11 cells and any start position, the walk yields
exactly the walks to empty positions `q` with every cell from just past
`start` through `q` empty, with the exact step distance `absDiff q start`
(at least 1, never the start cell itself); and on the concrete hallway with
units at 0 and 6, walking from 3 yields exactly (2,1), (1,2), (4,1), (5,2). -/
theorem walk_characterization (h : Hallway) (start : Nat)
    (hlen : h.cells.length = 11) (hs : start < 11) (q s : Nat) :
    ((⟨q, s⟩ : Walk) ∈ h.walk start ↔
      q < 11 ∧ q ≠ start ∧ h.cells.getD q none = none ∧
        (∀ r, r < max start q → min start q < r → h.cells.getD r none = none) ∧
        s = absDiff q start ∧ 1 ≤ s)
    ∧ hallwayC6.walk 3 = [⟨2, 1⟩, ⟨1, 2⟩, ⟨4, 1⟩, ⟨5, 2⟩] := by
  constructor
  · rw [Hallway.mem_walk (by omega)]
    unfold Hallway.clearBetween
    constructor
    · rintro ⟨h1, h2, h3, h4, h5⟩
      exact ⟨by omega, h2, h3, h4, h5, by rw [h5, absDiff_eq]; omega⟩
    · rintro ⟨h1, h2, h3, h4, h5, h6⟩
      exact ⟨by omega, h2, h3, h4, h5⟩
  · rfl

theorem walk_characterization_witness :
    hallwayC6.walk 3 = [⟨2, 1⟩, ⟨1, 2⟩, ⟨4, 1⟩, ⟨5, 2⟩] :=
  (walk_characterization hallwayC6 3 rfl (by omega) 0 0).2

/-- C7: `Room::occupy` fills the deepest unoccupied cell and returns the
entrance distance; `Room::leave` removes the shallowest occupied cell and
returns it with its entrance distance (`none` on an empty room); and
occupying an empty 4-deep room with D, B, C, D in order then leaving four
times yields D, C, B, D with steps 1, 2, 3, 4. -/
theorem room_stack_discipline :
    (∀ (r : Room) (a : Amphipod) (s : Nat) (r' : Room), r.occupy a = some (s, r') →
      ∃ j, j < r.cells.length ∧ r.cells.getD j none = none ∧
        (∀ k, j < k → k < r.cells.length → (r.cells.getD k none).isSome = true) ∧
        s = j + 1 ∧ r' = ⟨r.cells.set j (some a)⟩)
    ∧ (∀ r : Room, r.leave = none ↔ ∀ c ∈ r.cells, c = none)
    ∧ (∀ (r : Room) (a : Amphipod) (s : Nat) (r' : Room), r.leave = some (a, s, r') →
      ∃ j, j < r.cells.length ∧ r.cells.getD j none = some a ∧
        (∀ k, k < j → r.cells.getD k none = none) ∧ s = j + 1 ∧
        r' = ⟨r.cells.set j none⟩)
    ∧ emptyRoom.occupy .desert = some (4, ⟨[none, none, none, some .desert]⟩)
    ∧ (⟨[none, none, none, some .desert]⟩ : Room).occupy .bronze
        = some (3, ⟨[none, none, some .bronze, some .desert]⟩)
    ∧ (⟨[none, none, some .bronze, some .desert]⟩ : Room).occupy .copper
        = some (2, ⟨[none, some .copper, some .bronze, some .desert]⟩)
    ∧ (⟨[none, some .copper, some .bronze, some .desert]⟩ : Room).occupy .desert
        = some (1, ⟨[some .desert, some .copper, some .bronze, some .desert]⟩)
    ∧ (⟨[some .desert, some .copper, some .bronze, some .desert]⟩ : Room).leave
        = some (.desert, 1, ⟨[none, some .copper, some .bronze, some .desert]⟩)
    ∧ (⟨[none, some .copper, some .bronze, some .desert]⟩ : Room).leave
        = some (.copper, 2, ⟨[none, none, some .bronze, some .desert]⟩)
    ∧ (⟨[none, none, some .bronze, some .desert]⟩ : Room).leave
        = some (.bronze, 3, ⟨[none, none, none, some .desert]⟩)
    ∧ (⟨[none, none, none, some .desert]⟩ : Room).leave
        = some (.desert, 4, emptyRoom) := by
  exact ⟨fun r a s r' h => Room.occupy_spec h, Room.leave_eq_none_iff,
    fun r a s r' h => Room.leave_spec h, rfl, rfl, rfl, rfl, rfl, rfl, rfl, rfl⟩

/-- C8: `Room::occupy` reaches the fatal "Room full" branch (modelled as
`none`) exactly on rooms with every cell occupied; with any unoccupied cell
it returns normally. -/
theorem occupy_full_fatal :
    (∀ (r : Room) (a : Amphipod), (∀ c ∈ r.cells, c.isSome = true) →
      r.occupy a = none)
    ∧ (∀ (r : Room) (a : Amphipod), (∃ c ∈ r.cells, c = none) →
      ∃ s r', r.occupy a = some (s, r')) := by
  constructor
  · intro r a h
    exact (Room.occupy_eq_none_iff r a).mpr h
  · intro r a h
    cases hocc : r.occupy a with
    | none =>
      rw [Room.occupy_eq_none_iff] at hocc
      obtain ⟨c, hc, rfl⟩ := h
      have hbad := hocc _ hc
      simp at hbad
    | some x => exact ⟨x.1, x.2, rfl⟩

/-- C5 counterexample: in `settledWithHallwayUnit` every room contains only
its own kind, yet a desert unit stands in the hallway, so the heuristic is
9000 rather than 0 — refuting "estimated cost is 0 iff every room holds only
its own kind". -/
theorem estimated_cost_zero_iff_cex :
    ¬(settledWithHallwayUnit.estimatedCost = 0 ↔ settledWithHallwayUnit.Solved) := by
  unfold Burrow.Solved
  decide

/-- C5 (amended): the heuristic is 0 iff every room contains only units of
its own designated kind AND the hallway holds no units. -/
theorem estimated_cost_zero_iff (b : Burrow) (hwf : b.WF) :
    b.estimatedCost = 0 ↔ b.Solved ∧ b.hallway.amphipods = [] :=
  estimatedCost_zero_aux b hwf.2.1

theorem estimated_cost_zero_iff_witness :
    emptyBurrow.estimatedCost = 0 ↔
      emptyBurrow.Solved ∧ emptyBurrow.hallway.amphipods = [] :=
  estimated_cost_zero_iff emptyBurrow (by refine ⟨rfl, rfl, ?_⟩; decide)

/-- C10: a state whose estimated cost is 0 has no successors: no room needs
eviction and the hallway holds no unit, so both successor classes are empty. -/
theorem goal_state_no_successors (b : Burrow) (hwf : b.WF)
    (h : b.estimatedCost = 0) : b.successors = [] := by
  obtain ⟨hsolved, hempty⟩ := (estimatedCost_zero_aux b hwf.2.1).mp h
  have hnre := solved_no_evictions hwf.2.1 hsolved
  have hroom : b.roomSuccessors = [] := by
    unfold Burrow.roomSuccessors
    rw [hnre]
    rfl
  have hhall : b.hallwaySuccessors = [] := by
    unfold Burrow.hallwaySuccessors Burrow.hallwayReadyToEnterRoom
    rw [hempty]
    rfl
  unfold Burrow.successors
  rw [hroom, hhall]
  rfl

theorem goal_state_no_successors_witness : emptyBurrow.successors = [] :=
  goal_state_no_successors emptyBurrow (by refine ⟨rfl, rfl, ?_⟩; decide) (by decide)

theorem units_eq (b : Burrow) :
    b.units = ((b.hallway.cells.filterMap id : List Amphipod) : Multiset Amphipod)
      + (((b.rooms.map Room.cells).flatten.filterMap id : List Amphipod) :
          Multiset Amphipod) := by
  unfold Burrow.units
  rw [List.filterMap_append, ← Multiset.coe_add]

theorem roomAt_mem {b : Burrow} {i : Nat} (h : i < b.rooms.length) :
    b.roomAt i ∈ b.rooms := by
  unfold Burrow.roomAt
  rw [List.getD_eq_getElem _ _ h]
  exact List.getElem_mem _

theorem mem_roomSuccessors {b : Burrow} {x : Option (Burrow × Nat)} :
    x ∈ b.roomSuccessors ↔ ∃ i w, i ∈ b.roomsNeedingEvictions ∧
      w ∈ b.hallway.walk (roomPos i) ∧
      (!roomHallwayPositions.contains w.position) = true ∧
      x = b.successorFromRoomToHallway i w := by
  unfold Burrow.roomSuccessors
  simp only [List.mem_map, List.mem_flatMap, List.mem_filter]
  constructor
  · rintro ⟨iw, ⟨i, hi, w, ⟨hwmem, hnp⟩, rfl⟩, rfl⟩
    exact ⟨i, w, hi, hwmem, hnp, rfl⟩
  · rintro ⟨i, w, hi, hw, hnp, rfl⟩
    exact ⟨(i, w), ⟨i, hi, w, ⟨hw, hnp⟩, rfl⟩, rfl⟩

theorem mem_hallwaySuccessors {b : Burrow} {x : Option (Burrow × Nat)} :
    x ∈ b.hallwaySuccessors ↔ ∃ p w, (p, w) ∈ b.hallwayReadyToEnterRoom ∧
      x = b.successorFromHallwayToRoom p w := by
  unfold Burrow.hallwaySuccessors
  simp only [List.mem_map]
  constructor
  · rintro ⟨pw, hpw, rfl⟩
    exact ⟨pw.1, pw.2, hpw, rfl⟩
  · rintro ⟨p, w, hpw, rfl⟩
    exact ⟨(p, w), hpw, rfl⟩

theorem mem_hallwayReadyToEnterRoom {b : Burrow} {p : Nat} {w : Walk} :
    (p, w) ∈ b.hallwayReadyToEnterRoom ↔
      ∃ a, (p, a) ∈ b.hallway.amphipods ∧ (b.roomAt a.roomIndex).all a = true ∧
        ((b.hallway.walk p).find? fun w' =>
          decide (w'.position = roomPos a.roomIndex)) = some w := by
  unfold Burrow.hallwayReadyToEnterRoom
  simp only [List.mem_filterMap, List.mem_filter]
  constructor
  · rintro ⟨pa, ⟨hmem, hall⟩, hmap⟩
    obtain ⟨pq, a⟩ := pa
    dsimp only at hmap
    rw [Option.map_eq_some'] at hmap
    obtain ⟨w', hfind, heq⟩ := hmap
    simp only [Prod.mk.injEq] at heq
    obtain ⟨rfl, rfl⟩ := heq
    exact ⟨a, hmem, hall, hfind⟩
  · rintro ⟨a, hmem, hall, hfind⟩
    refine ⟨(p, a), ⟨hmem, hall⟩, ?_⟩
    dsimp only
    rw [hfind]
    rfl

theorem successorFromRoomToHallway_eq_some {b : Burrow} {i : Nat} {w : Walk}
    {s' : Burrow} {c : Nat}
    (h : b.successorFromRoomToHallway i w = some (s', c)) :
    ∃ a steps r', (b.roomAt i).leave = some (a, steps, r') ∧
      s' = ⟨b.hallway.occupy w.position a, b.rooms.set i r'⟩ ∧
      c = a.stepCost (steps + w.stepsTaken) := by
  unfold Burrow.successorFromRoomToHallway at h
  rw [Option.map_eq_some'] at h
  obtain ⟨als, hleave, heq⟩ := h
  obtain ⟨a, steps, r'⟩ := als
  dsimp only at heq
  simp only [Prod.mk.injEq] at heq
  obtain ⟨h1, h2⟩ := heq
  exact ⟨a, steps, r', hleave, h1.symm, h2.symm⟩

theorem successorFromHallwayToRoom_eq_some {b : Burrow} {p : Nat} {w : Walk}
    {s' : Burrow} {c : Nat}
    (h : b.successorFromHallwayToRoom p w = some (s', c)) :
    ∃ a e r', b.hallway.cells.getD p none = some a ∧
      (b.roomAt a.roomIndex).occupy a = some (e, r') ∧
      s' = ⟨⟨b.hallway.cells.set p none⟩, b.rooms.set a.roomIndex r'⟩ ∧
      c = a.stepCost (w.stepsTaken + e) := by
  unfold Burrow.successorFromHallwayToRoom Hallway.leave at h
  dsimp only at h
  cases hget : b.hallway.cells.getD p none with
  | none => rw [hget] at h; exact Option.noConfusion h
  | some a =>
    rw [hget] at h
    dsimp only at h
    cases hocc : (b.roomAt a.roomIndex).occupy a with
    | none => rw [hocc] at h; exact Option.noConfusion h
    | some er =>
      rw [hocc] at h
      dsimp only at h
      simp only [Option.some.injEq, Prod.mk.injEq] at h
      obtain ⟨h1, h2⟩ := h
      exact ⟨a, er.1, er.2, rfl, by rw [hocc], h1.symm, h2.symm⟩

theorem WF_successor {b s' : Burrow} {c : Nat} (hwf : b.WF)
    (h : some (s', c) ∈ b.successors) : s'.WF := by
  obtain ⟨hhw, hrlen, hrooms⟩ := hwf
  rw [Burrow.successors, List.mem_append] at h
  rcases h with h | h
  · rw [mem_roomSuccessors] at h
    obtain ⟨i, w, hi, hwmem, hnp, hx⟩ := h
    obtain ⟨a, steps, r', hleave, hs', hc⟩ := successorFromRoomToHallway_eq_some hx.symm
    obtain ⟨hi4, hall⟩ := (mem_roomsNeedingEvictions hrlen).mp hi
    obtain ⟨j, hj, _, _, _, hr'⟩ := Room.leave_spec hleave
    subst hs'
    refine ⟨by simp [Hallway.occupy, hhw], by simp [hrlen], ?_⟩
    intro r hr
    rcases List.mem_or_eq_of_mem_set hr with hr | rfl
    · exact hrooms r hr
    · rw [hr']
      show ((b.roomAt i).cells.set j none).length = 4
      rw [List.length_set]
      exact hrooms _ (roomAt_mem (by omega))
  · rw [mem_hallwaySuccessors] at h
    obtain ⟨p, w, hpw, hx⟩ := h
    obtain ⟨a, e, r', hget, hocc, hs', hc⟩ := successorFromHallwayToRoom_eq_some hx.symm
    obtain ⟨j, hj, _, _, _, hr'⟩ := Room.occupy_spec hocc
    have hidx := roomIndex_lt a
    subst hs'
    refine ⟨by simp [hhw], by simp [hrlen], ?_⟩
    intro r hr
    rcases List.mem_or_eq_of_mem_set hr with hr | rfl
    · exact hrooms r hr
    · rw [hr']
      show ((b.roomAt a.roomIndex).cells.set j (some a)).length = 4
      rw [List.length_set]
      exact hrooms _ (roomAt_mem (by omega))

theorem multiset_evict_algebra {α : Type} (hw rooms roomsNew rI rNew : Multiset α)
    (a : α) (h1 : roomsNew + rI = rooms + rNew) (h2 : rI = a ::ₘ rNew) :
    (a ::ₘ hw) + roomsNew = hw + rooms := by
  have h3 : roomsNew + ({a} + rNew) = rooms + rNew := by
    rw [Multiset.singleton_add, ← h2]
    exact h1
  have h4 : (roomsNew + {a}) + rNew = rooms + rNew := by
    rw [← h3]
    abel
  have h5 : roomsNew + {a} = rooms := add_right_cancel h4
  calc (a ::ₘ hw) + roomsNew = ({a} + hw) + roomsNew := by
        rw [Multiset.singleton_add]
    _ = hw + (roomsNew + {a}) := by abel
    _ = hw + rooms := by rw [h5]

theorem multiset_home_algebra {α : Type} (hwNew rooms roomsNew rI rNew : Multiset α)
    (a : α) (h1 : roomsNew + rI = rooms + rNew) (h2 : rNew = a ::ₘ rI) :
    hwNew + roomsNew = (a ::ₘ hwNew) + rooms := by
  have h3 : roomsNew + rI = (rooms + {a}) + rI := by
    rw [h1, h2, ← Multiset.singleton_add]
    abel
  have h5 : roomsNew = rooms + {a} := add_right_cancel h3
  calc hwNew + roomsNew = ({a} + hwNew) + rooms := by rw [h5]; abel
    _ = (a ::ₘ hwNew) + rooms := by rw [Multiset.singleton_add]

theorem units_successor {b s' : Burrow} {c : Nat} (hwf : b.WF)
    (h : some (s', c) ∈ b.successors) : s'.units = b.units := by
  have hhw := hwf.1
  have hrlen := hwf.2.1
  rw [Burrow.successors, List.mem_append] at h
  rw [units_eq, units_eq]
  rcases h with h | h
  · rw [mem_roomSuccessors] at h
    obtain ⟨i, w, hi, hwmem, hnp, hx⟩ := h
    obtain ⟨q, ws⟩ := w
    obtain ⟨a, steps, r', hleave, hs', hc⟩ := successorFromRoomToHallway_eq_some hx.symm
    obtain ⟨hi4, hall⟩ := (mem_roomsNeedingEvictions hrlen).mp hi
    obtain ⟨hq11, hqne, hqempty, hclear, hws⟩ :=
      (Hallway.mem_walk (by rw [hhw]; exact roomPos_lt hi4) q ws).mp hwmem
    obtain ⟨j, hj, hgetj, _, _, hr'⟩ := Room.leave_spec hleave
    subst hs'
    dsimp only [Hallway.occupy]
    have hwM : ((b.hallway.cells.set q (some a)).filterMap id : Multiset Amphipod)
        = a ::ₘ (b.hallway.cells.filterMap id : Multiset Amphipod) := by
      rw [Multiset.cons_coe]
      exact Multiset.coe_eq_coe.mpr
        (filterMap_set_some_perm b.hallway.cells q a (by omega) hqempty)
    have hroomM : (((b.roomAt i).cells.filterMap id : List Amphipod) :
        Multiset Amphipod) = a ::ₘ (r'.cells.filterMap id : Multiset Amphipod) := by
      rw [Multiset.cons_coe]
      refine Multiset.coe_eq_coe.mpr ?_
      rw [hr']
      exact filterMap_set_none_perm (b.roomAt i).cells j a hj hgetj
    have hroomsEq := rooms_flatten_set b.rooms i r' (by omega)
    rw [hwM]
    exact multiset_evict_algebra _ _ _ _ _ a hroomsEq hroomM
  · rw [mem_hallwaySuccessors] at h
    obtain ⟨p, w, hpw, hx⟩ := h
    obtain ⟨a, e, r', hget, hocc, hs', hc⟩ := successorFromHallwayToRoom_eq_some hx.symm
    obtain ⟨a', hmem, hall, hfind⟩ := mem_hallwayReadyToEnterRoom.mp hpw
    obtain ⟨hp11, hget'⟩ := (Hallway.mem_amphipods b.hallway p a').mp hmem
    obtain ⟨j, hj, hgetj, _, _, hr'⟩ := Room.occupy_spec hocc
    subst hs'
    dsimp only
    have hwM : ((b.hallway.cells.filterMap id : List Amphipod) : Multiset Amphipod)
        = a ::ₘ ((b.hallway.cells.set p none).filterMap id : Multiset Amphipod) := by
      rw [Multiset.cons_coe]
      exact Multiset.coe_eq_coe.mpr
        (filterMap_set_none_perm b.hallway.cells p a hp11 hget)
    have hroomM : ((r'.cells.filterMap id : List Amphipod) : Multiset Amphipod)
        = a ::ₘ (((b.roomAt a.roomIndex).cells.filterMap id : List Amphipod) :
            Multiset Amphipod) := by
      rw [Multiset.cons_coe]
      refine Multiset.coe_eq_coe.mpr ?_
      rw [hr']
      exact filterMap_set_some_perm (b.roomAt a.roomIndex).cells j a hj hgetj
    have hroomsEq := rooms_flatten_set b.rooms a.roomIndex r'
      (by rw [hrlen]; exact roomIndex_lt a)
    rw [hwM]
    exact multiset_home_algebra _ _ _ _ _ a hroomsEq hroomM

theorem units_reaches {b b' : Burrow} {n : Nat} (hr : Burrow.Reaches b b' n) :
    b.WF → b'.units = b.units := by
  induction hr with
  | refl => intro _; rfl
  | step hmem _ ih =>
    intro hwf
    rw [ih (WF_successor hwf hmem), units_successor hwf hmem]

theorem WF_reaches {b b' : Burrow} {n : Nat} (hr : Burrow.Reaches b b' n) :
    b.WF → b'.WF := by
  induction hr with
  | refl => exact id
  | step hmem _ ih => intro hwf; exact ih (WF_successor hwf hmem)

/-- C2: every successor preserves the multiset of units jointly held by the
hallway and the four rooms (exactly one unit is relocated, none created or
destroyed); hence the multiset is constant across every reachable state. -/
theorem conservation (b : Burrow) (hwf : b.WF) :
    (∀ (s' : Burrow) (c : Nat), some (s', c) ∈ b.successors → s'.units = b.units)
    ∧ (∀ (b' : Burrow) (n : Nat), Burrow.Reaches b b' n → b'.units = b.units) :=
  ⟨fun _ _ h => units_successor hwf h, fun _ _ hr => units_reaches hr hwf⟩

theorem absDiff_comm (a b : Nat) : absDiff a b = absDiff b a := by
  rw [absDiff_eq, absDiff_eq]
  omega

theorem conservation_witness :
    (∀ (s' : Burrow) (c : Nat), some (s', c) ∈ exampleBurrow.successors →
      s'.units = exampleBurrow.units)
    ∧ (∀ (b' : Burrow) (n : Nat), Burrow.Reaches exampleBurrow b' n →
      b'.units = exampleBurrow.units) :=
  conservation exampleBurrow (by refine ⟨rfl, rfl, ?_⟩; decide)

/-- C3: the room-to-hallway successors of a state are exactly the spec's
eviction moves: one per room not settled for its own kind and per empty
non-doorway hallway cell reachable from above that room, moving the
shallowest unit there at cost `step_cost(kind, leave_steps + walk_steps)`. -/
theorem room_to_hallway_characterization (b : Burrow) (hwf : b.WF)
    (x : Burrow × Nat) :
    some x ∈ b.roomSuccessors ↔ ∃ i q, b.evictionSpec i q x := by
  have hhw := hwf.1
  have hrlen := hwf.2.1
  rw [mem_roomSuccessors]
  constructor
  · rintro ⟨i, w, hi, hwmem, hnp, hx⟩
    obtain ⟨q, ws⟩ := w
    obtain ⟨a, steps, r', hleave, hs', hc⟩ := successorFromRoomToHallway_eq_some hx.symm
    obtain ⟨hi4, hall⟩ := (mem_roomsNeedingEvictions hrlen).mp hi
    obtain ⟨hq11, hqne, hqempty, hclear, hsteps⟩ :=
      (Hallway.mem_walk (by rw [hhw]; exact roomPos_lt hi4) q ws).mp hwmem
    refine ⟨i, q, hi4, hall, by omega, ?_, hqne, hqempty, hclear, a, steps, r',
      hleave, ?_⟩
    · simpa using hnp
    · obtain ⟨s', c⟩ := x
      simp only [Prod.mk.injEq] at hs' hc ⊢
      exact ⟨hs', by rw [hc, hsteps]⟩
  · rintro ⟨i, q, hi4, hall, hq11, hnp, hqne, hqempty, hclear, a, steps, r',
      hleave, hxeq⟩
    refine ⟨i, ⟨q, absDiff q (roomPos i)⟩, (mem_roomsNeedingEvictions hrlen).mpr
      ⟨hi4, hall⟩, ?_, ?_, ?_⟩
    · rw [Hallway.mem_walk (by rw [hhw]; exact roomPos_lt hi4)]
      exact ⟨by omega, hqne, hqempty, hclear, rfl⟩
    · simpa using hnp
    · unfold Burrow.successorFromRoomToHallway
      rw [hleave, hxeq]
      simp only [Option.map_some']

theorem room_to_hallway_characterization_witness :
    some exampleSuccessor ∈ exampleBurrow.roomSuccessors ↔
      ∃ i q, exampleBurrow.evictionSpec i q exampleSuccessor :=
  room_to_hallway_characterization exampleBurrow (by refine ⟨rfl, rfl, ?_⟩; decide)
    exampleSuccessor

theorem count_flatten_ge (rs : List Room) :
    ∀ (i : Nat), i < rs.length → ∀ (a : Amphipod),
      ((rs.getD i ⟨[]⟩).cells.filterMap id).count a ≤
        (((rs.map Room.cells).flatten).filterMap id).count a := by
  induction rs with
  | nil => intro i hi; simp at hi
  | cons r rest ih =>
    intro i hi a
    match i with
    | 0 =>
      simp only [List.getD_cons_zero, List.map_cons, List.flatten_cons,
        List.filterMap_append, List.count_append]
      omega
    | Nat.succ i' =>
      have hrec := ih i' (by simpa using hi) a
      simp only [List.getD_cons_succ, List.map_cons, List.flatten_cons,
        List.filterMap_append, List.count_append]
      omega

theorem count_filterMap_full (l : List (Option Amphipod)) (a : Amphipod)
    (hfull : ∀ c ∈ l, c.isSome = true)
    (hall : ∀ c ∈ l, ∀ x, c = some x → x = a) :
    (l.filterMap id).count a = l.length := by
  induction l with
  | nil => rfl
  | cons c rest ih =>
    have hfr : ∀ c ∈ rest, c.isSome = true :=
      fun c hc => hfull c (List.mem_cons_of_mem _ hc)
    have har : ∀ c ∈ rest, ∀ x, c = some x → x = a :=
      fun c hc => hall c (List.mem_cons_of_mem _ hc)
    match c with
    | none =>
      have hbad := hfull none (List.mem_cons_self _ _)
      simp at hbad
    | some x =>
      have hx : x = a := hall (some x) (List.mem_cons_self _ _) x rfl
      subst hx
      simp [List.filterMap_cons, List.count_cons, ih hfr har]

theorem occupy_succeeds {b : Burrow} (hwf : b.WF) (hcnt : ∀ k, b.kindCount k ≤ 4)
    {p : Nat} {a : Amphipod} (hget : b.hallway.cells.getD p none = some a)
    (hall : (b.roomAt a.roomIndex).all a = true) :
    (b.roomAt a.roomIndex).occupy a ≠ none := by
  intro hnone
  rw [Room.occupy_eq_none_iff] at hnone
  have hp : p < b.hallway.cells.length := by
    by_contra hge
    push_neg at hge
    rw [List.getD_eq_default _ _ hge] at hget
    exact Option.noConfusion hget
  have hcells4 : (b.roomAt a.roomIndex).cells.length = 4 :=
    hwf.2.2 _ (roomAt_mem (by rw [hwf.2.1]; exact roomIndex_lt a))
  have hcount4 : ((b.roomAt a.roomIndex).cells.filterMap id).count a = 4 := by
    rw [count_filterMap_full _ a hnone ?hall']
    · exact hcells4
    case hall' =>
      intro c hc x hcx
      exact (Room.all_iff _ _).mp hall c hc x hcx
  have hflat := count_flatten_ge b.rooms a.roomIndex
    (by rw [hwf.2.1]; exact roomIndex_lt a) a
  have hra : b.roomAt a.roomIndex = b.rooms.getD a.roomIndex ⟨[]⟩ := rfl
  rw [← hra] at hflat
  have hmemc : some a ∈ b.hallway.cells := by
    have hm : b.hallway.cells.getD p none ∈ b.hallway.cells := by
      rw [List.getD_eq_getElem _ _ hp]
      exact List.getElem_mem _
    rwa [hget] at hm
  have hhwc : 1 ≤ (b.hallway.cells.filterMap id).count a := by
    rw [List.one_le_count_iff, List.mem_filterMap]
    exact ⟨some a, hmemc, rfl⟩
  have hkc := hcnt a
  unfold Burrow.kindCount Burrow.units at hkc
  rw [Multiset.coe_count, List.filterMap_append, List.count_append] at hkc
  omega

/-- C4: the hallway-to-room successors of a state are exactly the spec's
homecoming moves — a hallway unit whose home room holds only its own kind and
whose path to the empty cell above that room is clear enters the deepest free
cell at cost `step_cost(kind, walk_steps + enter_steps)`; and under the
four-per-kind bound such a unit's home room always has a free cell. -/
theorem hallway_to_room_characterization (b : Burrow) (hwf : b.WF)
    (hcnt : ∀ k, b.kindCount k ≤ 4) :
    (∀ x : Burrow × Nat, some x ∈ b.hallwaySuccessors ↔ ∃ p, b.homecomingSpec p x)
    ∧ (∀ (p : Nat) (a : Amphipod), b.hallway.cells.getD p none = some a →
        (b.roomAt a.roomIndex).all a = true →
        (b.roomAt a.roomIndex).occupy a ≠ none) := by
  have hhw := hwf.1
  constructor
  · intro x
    rw [mem_hallwaySuccessors]
    constructor
    · rintro ⟨p, w, hpw, hxeq⟩
      obtain ⟨a, hmem, hall, hfind⟩ := mem_hallwayReadyToEnterRoom.mp hpw
      obtain ⟨hp, hget⟩ := (Hallway.mem_amphipods _ _ _).mp hmem
      obtain ⟨a2, e, r', hget2, hocc, hs', hc⟩ :=
        successorFromHallwayToRoom_eq_some hxeq.symm
      have haa : a2 = a := by
        rw [hget] at hget2
        injection hget2 with hinj
        exact hinj.symm
      subst haa
      have hw_mem := List.mem_of_find?_eq_some hfind
      have hw_pos : w.position = roomPos a2.roomIndex := by
        simpa using List.find?_some hfind
      obtain ⟨q, s⟩ := w
      obtain ⟨hq11, hqne, hqempty, hclear, hsteps⟩ :=
        (Hallway.mem_walk (by omega) q s).mp hw_mem
      simp only at hw_pos
      subst hw_pos
      refine ⟨p, a2, by omega, hget, hall, hqempty, hclear, e, r', hocc, ?_⟩
      obtain ⟨s', c⟩ := x
      simp only [Prod.mk.injEq] at hs' hc ⊢
      refine ⟨hs', ?_⟩
      rw [hc, hsteps, absDiff_comm]
    · rintro ⟨p, a, hp11, hget, hall, hrpempty, hclear, e, r', hocc, hxeq⟩
      have hrp11 : roomPos a.roomIndex < 11 := roomPos_lt (roomIndex_lt a)
      have hne : roomPos a.roomIndex ≠ p := by
        intro heq
        rw [heq, hget] at hrpempty
        exact Option.noConfusion hrpempty
      have hwmem : (⟨roomPos a.roomIndex, absDiff (roomPos a.roomIndex) p⟩ : Walk)
          ∈ b.hallway.walk p := by
        rw [Hallway.mem_walk (by omega)]
        exact ⟨by omega, hne, hrpempty, hclear, rfl⟩
      have hfindSome : ((b.hallway.walk p).find? fun w' =>
          decide (w'.position = roomPos a.roomIndex)).isSome := by
        rw [List.find?_isSome]
        exact ⟨_, hwmem, by simp⟩
      obtain ⟨w', hw'⟩ := Option.isSome_iff_exists.mp hfindSome
      have hw'pos : w'.position = roomPos a.roomIndex := by
        simpa using List.find?_some hw'
      have hw'mem := List.mem_of_find?_eq_some hw'
      obtain ⟨q', s'⟩ := w'
      obtain ⟨_, _, _, _, hsteps⟩ := (Hallway.mem_walk (by omega) q' s').mp hw'mem
      simp only at hw'pos
      subst hw'pos
      refine ⟨p, ⟨roomPos a.roomIndex, s'⟩, ?_, ?_⟩
      · rw [mem_hallwayReadyToEnterRoom]
        exact ⟨a, (Hallway.mem_amphipods _ _ _).mpr ⟨by omega, hget⟩, hall, hw'⟩
      · unfold Burrow.successorFromHallwayToRoom Hallway.leave
        dsimp only
        rw [hget]
        dsimp only
        rw [hocc]
        dsimp only
        rw [hxeq, hsteps, absDiff_comm]
  · intro p a hget hall
    exact occupy_succeeds hwf hcnt hget hall

theorem hallway_to_room_characterization_witness :
    (∀ x : Burrow × Nat, some x ∈ exampleBurrow2.hallwaySuccessors ↔
      ∃ p, exampleBurrow2.homecomingSpec p x)
    ∧ (∀ (p : Nat) (a : Amphipod),
        exampleBurrow2.hallway.cells.getD p none = some a →
        (exampleBurrow2.roomAt a.roomIndex).all a = true →
        (exampleBurrow2.roomAt a.roomIndex).occupy a ≠ none) :=
  hallway_to_room_characterization exampleBurrow2 (by refine ⟨rfl, rfl, ?_⟩; decide)
    (by intro k; cases k <;> decide)

/-- C9: with at most four units of each kind, fully evaluating `successors`
and `estimated_cost` never reaches a panic branch: every generated successor
is `some` (the evicted room is non-empty, the homecoming start cell is
occupied, and the entered home room has a free cell), and the
virtual-eviction loop only calls `leave` on rooms that are not settled,
which are never empty. -/
theorem no_panics (b : Burrow) (hwf : b.WF) (hcnt : ∀ k, b.kindCount k ≤ 4) :
    (∀ x ∈ b.successors, ∃ y, x = some y)
    ∧ (∀ (r : Room) (k : Amphipod), r.all k = false → r.leave ≠ none) := by
  constructor
  · intro x hx
    rw [Burrow.successors, List.mem_append] at hx
    rcases hx with hx | hx
    · rw [mem_roomSuccessors] at hx
      obtain ⟨i, w, hi, _, _, rfl⟩ := hx
      obtain ⟨_, hallf⟩ := (mem_roomsNeedingEvictions hwf.2.1).mp hi
      cases hleave : (b.roomAt i).leave with
      | none => exact absurd hleave (Room.leave_isSome_of_not_all hallf)
      | some z =>
        unfold Burrow.successorFromRoomToHallway
        rw [hleave]
        exact ⟨_, rfl⟩
    · rw [mem_hallwaySuccessors] at hx
      obtain ⟨p, w, hpw, rfl⟩ := hx
      obtain ⟨a, hmem, hall, hfind⟩ := mem_hallwayReadyToEnterRoom.mp hpw
      obtain ⟨hp, hget⟩ := (Hallway.mem_amphipods _ _ _).mp hmem
      unfold Burrow.successorFromHallwayToRoom Hallway.leave
      dsimp only
      rw [hget]
      dsimp only
      cases hocc : (b.roomAt a.roomIndex).occupy a with
      | none => exact absurd hocc (occupy_succeeds hwf hcnt hget hall)
      | some er => exact ⟨_, rfl⟩
  · intro r k hf
    exact Room.leave_isSome_of_not_all hf

theorem no_panics_witness :
    (∀ x ∈ exampleBurrow2.successors, ∃ y, x = some y)
    ∧ (∀ (r : Room) (k : Amphipod), r.all k = false → r.leave ≠ none) :=
  no_panics exampleBurrow2 (by refine ⟨rfl, rfl, ?_⟩; decide)
    (by intro k; cases k <;> decide)

theorem getD_set_self' {α : Type} (l : List α) (i : Nat) (v d : α)
    (h : i < l.length) : (l.set i v).getD i d = v := by
  rw [List.getD_eq_getElem _ _ (by simpa using h)]
  simp

theorem getD_set_ne' {α : Type} (l : List α) {i j : Nat} (v d : α)
    (h : i ≠ j) : (l.set i v).getD j d = l.getD j d := by
  by_cases hj : j < l.length
  · rw [List.getD_eq_getElem _ _ (by simpa using hj), List.getD_eq_getElem _ _ hj]
    simp [List.getElem_set_ne h]
  · push_neg at hj
    rw [List.getD_eq_default _ _ (by simpa using hj), List.getD_eq_default _ _ hj]

theorem sum_range4_set (g g' : Nat → Nat) (i : Nat) (hi : i < 4)
    (hsame : ∀ j, j < 4 → j ≠ i → g' j = g j) :
    ((List.range 4).map g').sum + g i = ((List.range 4).map g).sum + g' i := by
  have h4 : List.range 4 = [0, 1, 2, 3] := rfl
  rw [h4]
  simp only [List.map_cons, List.map_nil, List.sum_cons, List.sum_nil]
  interval_cases i
  · rw [hsame 1 (by omega) (by omega), hsame 2 (by omega) (by omega),
      hsame 3 (by omega) (by omega)]
    omega
  · rw [hsame 0 (by omega) (by omega), hsame 2 (by omega) (by omega),
      hsame 3 (by omega) (by omega)]
    omega
  · rw [hsame 0 (by omega) (by omega), hsame 1 (by omega) (by omega),
      hsame 3 (by omega) (by omega)]
    omega
  · rw [hsame 0 (by omega) (by omega), hsame 1 (by omega) (by omega),
      hsame 2 (by omega) (by omega)]
    omega

theorem estimatedCost_consistent {b s' : Burrow} {c : Nat} (hwf : b.WF)
    (h : some (s', c) ∈ b.successors) :
    b.estimatedCost ≤ c + s'.estimatedCost := by
  have hhw := hwf.1
  have hrlen := hwf.2.1
  rw [Burrow.successors, List.mem_append] at h
  rcases h with h | h
  · rw [mem_roomSuccessors] at h
    obtain ⟨i, w, hi, hwmem, hnp, hx⟩ := h
    obtain ⟨q, ws⟩ := w
    obtain ⟨a, steps, r', hleave, hs', hc⟩ := successorFromRoomToHallway_eq_some hx.symm
    obtain ⟨hi4, hall⟩ := (mem_roomsNeedingEvictions hrlen).mp hi
    obtain ⟨hq11, hqne, hqempty, hclear, hsteps⟩ :=
      (Hallway.mem_walk (by rw [hhw]; exact roomPos_lt hi4) q ws).mp hwmem
    subst hs'
    subst hc
    have hrlen' : (b.rooms.set i r').length = 4 := by simp [hrlen]
    rw [estimatedCost_eq b hrlen,
      estimatedCost_eq ⟨b.hallway.occupy q a, b.rooms.set i r'⟩ hrlen']
    have hHW : (((b.hallway.occupy q a).amphipods).map
        (fun pa => pa.2.stepCost (absDiff (roomPos pa.2.roomIndex) pa.1 + 1))).sum
        = ((b.hallway.amphipods).map
          (fun pa => pa.2.stepCost (absDiff (roomPos pa.2.roomIndex) pa.1 + 1))).sum
        + a.stepCost (absDiff (roomPos a.roomIndex) q + 1) :=
      hallway_sum_occupy _ b.hallway q a (by omega) hqempty
    have hgsame : ∀ j, j < 4 → j ≠ i →
        virtualEvictCost ((⟨b.hallway.occupy q a, b.rooms.set i r'⟩ : Burrow).roomAt j)
          (roomKind j) (roomPos j)
        = virtualEvictCost (b.roomAt j) (roomKind j) (roomPos j) := by
      intro j hj hne
      have hrj : (⟨b.hallway.occupy q a, b.rooms.set i r'⟩ : Burrow).roomAt j
          = b.roomAt j := by
        unfold Burrow.roomAt
        exact getD_set_ne' _ _ _ (fun heq => hne heq.symm)
      rw [hrj]
    have hgi : (⟨b.hallway.occupy q a, b.rooms.set i r'⟩ : Burrow).roomAt i = r' := by
      unfold Burrow.roomAt
      exact getD_set_self' _ _ _ _ (by omega)
    have hsum : ((List.range 4).map fun j =>
          virtualEvictCost ((⟨b.hallway.occupy q a, b.rooms.set i r'⟩ : Burrow).roomAt j)
            (roomKind j) (roomPos j)).sum
          + virtualEvictCost (b.roomAt i) (roomKind i) (roomPos i)
        = ((List.range 4).map fun j =>
            virtualEvictCost (b.roomAt j) (roomKind j) (roomPos j)).sum
          + virtualEvictCost r' (roomKind i) (roomPos i) := by
      simpa [hgi] using sum_range4_set
        (fun j => virtualEvictCost (b.roomAt j) (roomKind j) (roomPos j))
        (fun j =>
          virtualEvictCost ((⟨b.hallway.occupy q a, b.rooms.set i r'⟩ : Burrow).roomAt j)
            (roomKind j) (roomPos j))
        i hi4 hgsame
    have hunfold : virtualEvictCost (b.roomAt i) (roomKind i) (roomPos i)
        = a.stepCost (if a = roomKind i then steps + 3
            else steps + absDiff (roomPos i) (roomPos a.roomIndex) + 1)
          + virtualEvictCost r' (roomKind i) (roomPos i) :=
      virtualEvictCost_of_leave hall hleave
    have hcharge : (if a = roomKind i then steps + 3
        else steps + absDiff (roomPos i) (roomPos a.roomIndex) + 1)
        ≤ (steps + absDiff q (roomPos i)) + (absDiff (roomPos a.roomIndex) q + 1) := by
      split
      · next heq =>
        subst heq
        rw [roomIndex_roomKind hi4]
        rw [absDiff_eq, absDiff_eq]
        omega
      · rw [absDiff_eq, absDiff_eq, absDiff_eq]
        omega
    have hchargeC : a.stepCost (if a = roomKind i then steps + 3
        else steps + absDiff (roomPos i) (roomPos a.roomIndex) + 1)
        ≤ a.stepCost (steps + absDiff q (roomPos i))
          + a.stepCost (absDiff (roomPos a.roomIndex) q + 1) := by
      calc a.stepCost (if a = roomKind i then steps + 3
            else steps + absDiff (roomPos i) (roomPos a.roomIndex) + 1)
          ≤ a.stepCost ((steps + absDiff q (roomPos i))
            + (absDiff (roomPos a.roomIndex) q + 1)) := stepCost_mono a hcharge
        _ = a.stepCost (steps + absDiff q (roomPos i))
            + a.stepCost (absDiff (roomPos a.roomIndex) q + 1) := stepCost_add a _ _
    dsimp only
    rw [hsteps, hHW]
    omega
  · rw [mem_hallwaySuccessors] at h
    obtain ⟨p, w, hpw, hx⟩ := h
    obtain ⟨a', hmem, hall, hfind⟩ := mem_hallwayReadyToEnterRoom.mp hpw
    obtain ⟨hp, hget'⟩ := (Hallway.mem_amphipods _ _ _).mp hmem
    obtain ⟨a, e, r', hget, hocc, hs', hc⟩ := successorFromHallwayToRoom_eq_some hx.symm
    have haa : a' = a := by
      rw [hget] at hget'
      injection hget' with hinj
      exact hinj.symm
    subst haa
    have hw_mem := List.mem_of_find?_eq_some hfind
    have hw_pos : w.position = roomPos a'.roomIndex := by
      simpa using List.find?_some hfind
    obtain ⟨q, s⟩ := w
    simp only at hw_pos
    subst hw_pos
    obtain ⟨hq11, hqne, hqempty, hclear, hsteps⟩ :=
      (Hallway.mem_walk (by omega) _ s).mp hw_mem
    subst hs'
    subst hc
    have hri := roomIndex_lt a'
    have hrlen' : (b.rooms.set a'.roomIndex r').length = 4 := by simp [hrlen]
    rw [estimatedCost_eq b hrlen,
      estimatedCost_eq ⟨⟨b.hallway.cells.set p none⟩, b.rooms.set a'.roomIndex r'⟩
        hrlen']
    have hHW : ((b.hallway.amphipods).map
        (fun pa => pa.2.stepCost (absDiff (roomPos pa.2.roomIndex) pa.1 + 1))).sum
        = (((⟨b.hallway.cells.set p none⟩ : Hallway).amphipods).map
          (fun pa => pa.2.stepCost (absDiff (roomPos pa.2.roomIndex) pa.1 + 1))).sum
        + a'.stepCost (absDiff (roomPos a'.roomIndex) p + 1) :=
      hallway_sum_remove _ b.hallway p a' hp hget
    have hgsame : ∀ j, j < 4 → j ≠ a'.roomIndex →
        virtualEvictCost
          ((⟨⟨b.hallway.cells.set p none⟩, b.rooms.set a'.roomIndex r'⟩ : Burrow).roomAt j)
          (roomKind j) (roomPos j)
        = virtualEvictCost (b.roomAt j) (roomKind j) (roomPos j) := by
      intro j hj hne
      have hrj : (⟨⟨b.hallway.cells.set p none⟩,
          b.rooms.set a'.roomIndex r'⟩ : Burrow).roomAt j = b.roomAt j := by
        unfold Burrow.roomAt
        exact getD_set_ne' _ _ _ (fun heq => hne heq.symm)
      rw [hrj]
    have hgi : (⟨⟨b.hallway.cells.set p none⟩,
        b.rooms.set a'.roomIndex r'⟩ : Burrow).roomAt a'.roomIndex = r' := by
      unfold Burrow.roomAt
      exact getD_set_self' _ _ _ _ (by omega)
    have hsum : ((List.range 4).map fun j =>
          virtualEvictCost
            ((⟨⟨b.hallway.cells.set p none⟩,
              b.rooms.set a'.roomIndex r'⟩ : Burrow).roomAt j)
            (roomKind j) (roomPos j)).sum
          + virtualEvictCost (b.roomAt a'.roomIndex) (roomKind a'.roomIndex)
            (roomPos a'.roomIndex)
        = ((List.range 4).map fun j =>
            virtualEvictCost (b.roomAt j) (roomKind j) (roomPos j)).sum
          + virtualEvictCost r' (roomKind a'.roomIndex) (roomPos a'.roomIndex) := by
      simpa [hgi] using sum_range4_set
        (fun j => virtualEvictCost (b.roomAt j) (roomKind j) (roomPos j))
        (fun j => virtualEvictCost
          ((⟨⟨b.hallway.cells.set p none⟩,
            b.rooms.set a'.roomIndex r'⟩ : Burrow).roomAt j)
          (roomKind j) (roomPos j))
        a'.roomIndex hri hgsame
    have hg0 : virtualEvictCost (b.roomAt a'.roomIndex) (roomKind a'.roomIndex)
        (roomPos a'.roomIndex) = 0 := by
      apply virtualEvictCost_of_all
      rw [roomKind_roomIndex]
      exact hall
    have hg'0 : virtualEvictCost r' (roomKind a'.roomIndex) (roomPos a'.roomIndex)
        = 0 := by
      apply virtualEvictCost_of_all
      rw [roomKind_roomIndex]
      exact Room.all_occupy hall hocc
    have he1 : 1 ≤ e := by
      obtain ⟨j, _, _, _, hsj, _⟩ := Room.occupy_spec hocc
      omega
    have hmono : a'.stepCost (absDiff (roomPos a'.roomIndex) p + 1)
        ≤ a'.stepCost (absDiff (roomPos a'.roomIndex) p + e) :=
      stepCost_mono a' (by omega)
    dsimp only
    rw [hsteps, hHW]
    omega

theorem admissible_aux {b T : Burrow} {cost : Nat} (hr : Burrow.Reaches b T cost) :
    b.WF → T.estimatedCost = 0 → b.estimatedCost ≤ cost := by
  induction hr with
  | refl =>
    intro _ h0
    omega
  | step hmem _ ih =>
    intro hwf h0
    have hrest := ih (WF_successor hwf hmem) h0
    have hcons := estimatedCost_consistent hwf hmem
    omega

/-- C1: the heuristic is admissible: along any finite sequence of successor
moves from a state `b` to a state with estimated cost 0, `b.estimatedCost`
never exceeds the accumulated incremental cost — including the `steps + 3`
out-and-back-in charge for an own-kind unit in an unsettled room. -/
theorem heuristic_admissible (b T : Burrow) (cost : Nat) (hwf : b.WF)
    (hr : Burrow.Reaches b T cost) (hT : T.estimatedCost = 0) :
    b.estimatedCost ≤ cost :=
  admissible_aux hr hwf hT

theorem heuristic_admissible_witness : emptyBurrow.estimatedCost ≤ 0 :=
  heuristic_admissible emptyBurrow emptyBurrow 0
    (by refine ⟨rfl, rfl, ?_⟩; decide) (Burrow.Reaches.refl emptyBurrow) (by decide)

end Amphipod2021
